import Mathlib

/-!
Verification of the static FastAPI endpoint extractor of this repository
(`src/extraction/repo_collector.py`, class `RepoCollector` and class
`EndpointVisitor`) against its natural-language specification.

The Python code is shallowly embedded: the relevant fragment of the Python
abstract syntax (`ast` module) is modelled by the inductives below, the
filesystem of a checked-out project by a list of files (each carrying its
raw text, its parse result, and its source lines), and every method of the
collector by an executable Lean function that mirrors the Python
control flow statement by statement.  Machine-level details that the code
never exercises are documented at each definition.

Modelling conventions:
* Paths are lists of segments, relative to the project root
  (`temp_repos/<repo>` in the Python code).  `PurePath.parent` of the root
  is the root itself, matching `PurePath('.').parent == PurePath('.')`.
* A file's parse result is part of the file datum (`tree : Option ...`);
  `none` models `ast.parse` raising `SyntaxError` (caught by the code).
* CPython >= 3.8 sets `FunctionDef.lineno`/`col_offset` to the position of
  the `def` (or `async`) keyword, *after* the decorator list; decorators
  carry their own (earlier) line numbers.  The embedding reproduces this.
* Python `set` iteration order is unspecified; `_find_includes` returns a
  set.  The embedding returns the discovered names deduplicated in
  first-discovery order.  No claim below depends on that order.
* String column offsets are byte offsets in CPython; the sources involved
  are ASCII, where byte and character offsets agree.
-/

set_option maxRecDepth 4096

namespace PyRC

/-! ### String utilities (kernel-reducible replacements for library code) -/

/-- Boolean list-prefix test, `l` begins with `pat`. -/
def listIsPre : List Char → List Char → Bool
  | [], _ => true
  | _ :: _, [] => false
  | p :: ps, c :: cs => p = c && listIsPre ps cs

/-- Boolean substring test on character lists (Python `pat in s`). -/
def listHasSub (pat : List Char) : List Char → Bool
  | [] => listIsPre pat []
  | c :: cs => listIsPre pat (c :: cs) || listHasSub pat cs

/-- Python `sub in s` on strings. -/
def containsSub (s sub : String) : Bool := listHasSub sub.data s.data

/-- Split a character list on a separator character (Python `str.split(sep)`
for a one-character separator: always returns at least one piece). -/
def splitOnChar (sep : Char) : List Char → List (List Char)
  | [] => [[]]
  | c :: cs =>
    if c = sep then [] :: splitOnChar sep cs
    else
      match splitOnChar sep cs with
      | [] => [[c]]
      | h :: t => (c :: h) :: t

/-- Python `module.split('.')`. -/
def strSplitDot (s : String) : List String :=
  (splitOnChar '.' s.data).map String.mk

/-- One pass of leftmost non-overlapping replacement; the `Nat` argument is
fuel bounding the number of examined characters (callers pass the length of
the list, which is always sufficient because `pat` is nonempty). -/
def replA (pat rep : List Char) : Nat → List Char → List Char
  | _, [] => []
  | 0, l => l
  | n + 1, c :: cs =>
    if pat ≠ [] && listIsPre pat (c :: cs) then
      rep ++ replA pat rep n ((c :: cs).drop pat.length)
    else
      c :: replA pat rep n cs

/-- Python `s.replace(pat, rep)` (all leftmost non-overlapping occurrences;
the code only calls it with nonempty patterns). -/
def replaceSub (pat rep s : String) : String :=
  String.mk (replA pat.data rep.data s.data.length s.data)

/-- Python `s.upper()` (ASCII range, which is all the code produces). -/
def strUpper (s : String) : String := String.mk (s.data.map Char.toUpper)

/-- Join a list of strings with a separator (`sep.join(parts)`). -/
def joinSep (sep : String) : List String → String
  | [] => ""
  | [x] => x
  | x :: xs => x ++ sep ++ joinSep sep xs

/-- Python `c in s` for a single character. -/
def strHasChar (s : String) (c : Char) : Bool := s.data.contains c

/-- Decimal digit character. -/
def digCh : Nat → Char
  | 0 => '0' | 1 => '1' | 2 => '2' | 3 => '3' | 4 => '4'
  | 5 => '5' | 6 => '6' | 7 => '7' | 8 => '8' | _ => '9'

/-- Decimal digits of `n`, most significant first; the first argument is
fuel (any value `≥ n + 1` is sufficient). -/
def natChars : Nat → Nat → List Char
  | 0, _ => []
  | fuel + 1, n =>
    if n < 10 then [digCh n]
    else natChars fuel (n / 10) ++ [digCh (n % 10)]

/-- Decimal rendering of a natural number (Python `f"{idx}"`). -/
def natStr (n : Nat) : String := String.mk (natChars (n + 1) n)

/-- Numeric value of a decimal digit character (inverse of `digCh`). -/
def chVal (c : Char) : Nat :=
  if c = '0' then 0 else if c = '1' then 1 else if c = '2' then 2
  else if c = '3' then 3 else if c = '4' then 4 else if c = '5' then 5
  else if c = '6' then 6 else if c = '7' then 7 else if c = '8' then 8
  else 9

/-- Value of a most-significant-first decimal digit list. -/
def valChars (l : List Char) : Nat := l.foldl (fun a c => 10 * a + chVal c) 0

/-- Characters after the last underscore of `s` (used to read the ordinal
back out of a generated endpoint id). -/
def afterLastUnd (s : String) : List Char :=
  (s.data.reverse.takeWhile (fun c => c ≠ '_')).reverse

/-! ### The embedded fragment of the Python AST -/

/-- Literal constants (`ast.Constant`).  Only the payloads the extractor can
observe are distinguished. -/
inductive Const where
  | str (s : String)
  | intC (n : Int)
  | boolC (b : Bool)
  | noneC
  deriving DecidableEq, Repr

/-- Expressions.  `call` stores keyword arguments as parallel lists of
names (`none` for `**kwargs`) and value expressions; the extractor never
reads them, but they are part of the tree that `ast.walk` traverses.
`otherE` stands for any other expression kind, keeping its child
expressions. -/
inductive Expr where
  | name (id : String)
  | attrE (value : Expr) (attrName : String)
  | call (func : Expr) (args : List Expr) (kwNames : List (Option String)) (kwVals : List Expr)
  | constE (c : Const)
  | otherE (children : List Expr)
  deriving Repr

/-- Assignment targets: a plain `ast.Name`, or anything else (tuple,
starred, attribute, ... — the code only ever inspects plain names). -/
inductive Tgt where
  | tName (id : String)
  | tOther
  deriving Repr

/-- One name of an `ast.ImportFrom` (`alias.name`, `alias.asname`). -/
structure ImportAlias where
  origName : String
  asName : Option String
  deriving Repr

/-- A decorator expression together with its start line (CPython puts
decorators on lines strictly before the `def` keyword of the function they
decorate). -/
structure Deco where
  expr : Expr
  lineno : Nat
  deriving Repr

/-- Statements.  `funcDef` covers `ast.FunctionDef` and
`ast.AsyncFunctionDef` (flag `isAsync`); its location fields are those of
the node itself, which in CPython >= 3.8 start at the `def`/`async`
keyword, not at the decorators.  `otherS` stands for any other compound
statement (`if`, `while`, `try`, `with`, `class`, ...), keeping its child
expressions and child statements. -/
inductive Stmt where
  | assign (targets : List Tgt) (value : Expr)
  | funcDef (fname : String) (decorators : List Deco) (body : List Stmt)
      (isAsync : Bool) (lineno colOffset endLineno endColOffset : Nat)
  | importFrom (module : Option String) (names : List ImportAlias) (level : Nat)
  | exprStmt (e : Expr)
  | otherS (exprs : List Expr) (body : List Stmt)
  deriving Repr

mutual
/-- Number of statement nodes in a statement (the nested statements). -/
def sizeS : Stmt → Nat
  | .funcDef _ _ body _ _ _ _ _ => 1 + sizeL body
  | .otherS _ body => 1 + sizeL body
  | _ => 1
/-- Number of statement nodes in a statement list. -/
def sizeL : List Stmt → Nat
  | [] => 0
  | s :: r => sizeS s + sizeL r
end

/-- Direct child statements of a statement. -/
def stmtChildStmts : Stmt → List Stmt
  | .funcDef _ _ body _ _ _ _ _ => body
  | .otherS _ body => body
  | _ => []

/-- Breadth-first statement walk, fuelled (one unit of fuel per level).
`bfsAll` passes fuel that provably suffices, see `bfsAux_fuel_irrel`. -/
def bfsAux : Nat → List Stmt → List Stmt
  | _, [] => []
  | 0, _ :: _ => []
  | fuel + 1, s :: r => (s :: r) ++ bfsAux fuel ((s :: r).flatMap stmtChildStmts)

/-- All statements of a module body in the breadth-first order of
`ast.walk` (statements restricted; expressions carry no statements). -/
def bfsAll (body : List Stmt) : List Stmt := bfsAux (sizeL body) body

/-- The `ast.Assign` nodes of a tree, in `ast.walk` (breadth-first) order. -/
def walkAssigns (body : List Stmt) : List (List Tgt × Expr) :=
  (bfsAll body).filterMap fun s =>
    match s with
    | .assign tgts v => some (tgts, v)
    | _ => none

/-- The `ast.ImportFrom` nodes of a tree flattened to one entry per alias,
in `ast.walk` (breadth-first) order. -/
def walkImportAliases (body : List Stmt) : List (Option String × Nat × ImportAlias) :=
  (bfsAll body).flatMap fun s =>
    match s with
    | .importFrom m names lvl => names.map fun al => (m, lvl, al)
    | _ => []

/-- Child expressions of a statement (where calls can hide). -/
def stmtExprs : Stmt → List Expr
  | .assign _ v => [v]
  | .funcDef _ decs _ _ _ _ _ _ => decs.map (·.expr)
  | .importFrom _ _ _ => []
  | .exprStmt e => [e]
  | .otherS es _ => es

mutual
/-- All `ast.Call` nodes inside an expression (the node itself included
when it is a call). -/
def callsE : Expr → List Expr
  | .name _ => []
  | .constE _ => []
  | .attrE v _ => callsE v
  | .call f args kn kv =>
    Expr.call f args kn kv :: (callsE f ++ callsL args ++ callsL kv)
  | .otherE es => callsL es
/-- All `ast.Call` nodes inside an expression list. -/
def callsL : List Expr → List Expr
  | [] => []
  | e :: es => callsE e ++ callsL es
end

/-- All `ast.Call` nodes of a tree (the traversal order differs from
`ast.walk`, but every consumer treats the result as a set). -/
def allCallsIn (body : List Stmt) : List Expr :=
  (bfsAll body).flatMap fun s => callsL (stmtExprs s)

/-! ### The project (a checked-out repository on disk) -/

/-- A path relative to the project root, as a list of segments
(`pathlib.PurePath.parts` without the `temp_repos/<repo>` part). -/
abbrev FPath := List String

/-- One Python file of the project: its path, its raw text (for the
`"FastAPI" in text` pre-filter), its parse result (`none` when `ast.parse`
raises `SyntaxError`), and its source lines (without newline characters,
as `source.splitlines()` of the same text). -/
structure PyFile where
  path : FPath
  text : String
  tree : Option (List Stmt)
  srcLines : List String

/-- A project root: the `**/*.py` files below it, in the enumeration order
of `Path.glob`. -/
structure Project where
  files : List PyFile

/-- Filesystem lookup (`Path.exists` / `open`); scoped to the project. -/
def findFile (proj : Project) (p : FPath) : Option PyFile :=
  proj.files.find? fun f => f.path = p

/-- Python `candidate.exists()`. -/
def pexists (proj : Project) (p : FPath) : Bool := (findFile proj p).isSome

/-- `Path.parent`, with the root mapped to itself (as `PurePath('.')`). -/
def parentDir (p : FPath) : FPath := p.dropLast

/-- Walk up `n` parent directories (`for _ in range(level - 1)`). -/
def upParents : Nat → FPath → FPath
  | 0, p => p
  | n + 1, p => upParents n (parentDir p)

/-- Python `PurePath.with_suffix('.py')` applied to one path segment:
replaces an existing extension (a dot not in position zero) by `.py`,
otherwise appends `.py`. -/
def withSuffixSeg (s : String) : String :=
  let rev := s.data.reverse
  let tail := rev.takeWhile (fun c => c ≠ '.')
  if tail.length < s.data.length && tail.length + 1 < s.data.length then
    String.mk ((rev.drop (tail.length + 1)).reverse) ++ ".py"
  else s ++ ".py"

/-- Python `target.with_suffix('.py')` on a whole path (only the final
segment is affected; the root is left unchanged, a case the claims never
reach). -/
def withSuffixPy (p : FPath) : FPath :=
  match p.getLast? with
  | none => p
  | some lastSg => p.dropLast ++ [withSuffixSeg lastSg]

/-- `str(path)` with POSIX separators (`current_file.relative_to(repo_path)`
rendered back to a string). -/
def relStr (p : FPath) : String := joinSep "/" p

/-! ### RepoCollector._build_module_map -/

/-- Dotted module name of a file path: strip `.py` (all occurrences, as
`str.replace` does), drop a trailing `__init__`, join the rest with dots;
`none` when nothing remains (mirrors `if parts:`). -/
def moduleName (p : FPath) : Option String :=
  match p.getLast? with
  | none => none
  | some lastSg =>
    let stem := replaceSub ".py" "" lastSg
    let parts := p.dropLast ++ (if stem = "__init__" then [] else [stem])
    if parts = [] then none else some (joinSep "." parts)

/-- The module map as an association list in file-enumeration order
(`self._module_map`). -/
def moduleMapL (proj : Project) : List (String × FPath) :=
  proj.files.filterMap fun f => (moduleName f.path).map fun m => (m, f.path)

/-- Dictionary lookup in the module map.  Later insertions overwrite
earlier ones, hence the reverse-first search. -/
def moduleLookup (proj : Project) (m : String) : Option FPath :=
  ((moduleMapL proj).reverse.find? fun pr => pr.1 = m).map (·.2)

/-! ### RepoCollector._resolve_import_path -/

/-- The dotted segments of the module text of an `ImportFrom`, empty when
the module is absent or empty (Python's `if module:`). -/
def modSegs : Option String → List String
  | none => []
  | some m => if m = "" then [] else strSplitDot m

/-- Faithful embedding of `RepoCollector._resolve_import_path`:
resolve an import statement's module reference to a file of the project.
`level` is the number of leading dots of the import. -/
def resolveImportPath (proj : Project) (cur : FPath) (module : Option String)
    (level : Nat) : Option FPath :=
  if level > 0 then
    let baseDir := upParents (level - 1) (parentDir cur)
    let target := baseDir ++ modSegs module
    let candidate := withSuffixPy target
    if pexists proj candidate then some candidate
    else
      let candidatePkg := target ++ ["__init__.py"]
      if pexists proj candidatePkg then some candidatePkg else none
  else
    match module with
    | none => none
    | some m =>
      if m = "" then none
      else
        match moduleLookup proj m with
        | some p => some p
        | none =>
          let target := strSplitDot m
          let candidate := withSuffixPy target
          if pexists proj candidate then some candidate
          else
            let candidatePkg := target ++ ["__init__.py"]
            if pexists proj candidatePkg then some candidatePkg else none

/-! ### RepoCollector._resolve_variable_origin -/

/-- The action of `_resolve_variable_origin` on one `ImportFrom` alias:
`none` means "keep scanning" (either the alias does not bind the variable,
or its module cannot be resolved to a file). -/
def originOfAlias (proj : Project) (cur : FPath) (varName : String)
    (m : Option String) (lvl : Nat) (al : ImportAlias) :
    Option (FPath × Option String) :=
  if al.asName.getD al.origName = varName then
    match resolveImportPath proj cur m lvl with
    | none => none
    | some rp =>
      if rp.getLast? = some "__init__.py" then
        let candidateSub := rp.dropLast ++ [al.origName ++ ".py"]
        if pexists proj candidateSub then some (candidateSub, none)
        else
          let candidatePkg := rp.dropLast ++ [al.origName, "__init__.py"]
          if pexists proj candidatePkg then some (candidatePkg, none)
          else some (rp, some al.origName)
      else some (rp, some al.origName)
  else none

/-- Faithful embedding of `RepoCollector._resolve_variable_origin`: find
where `varName`, referenced in the file `cur` with tree `body`, is
defined.  A `none` second component means "the resolved file itself is the
target module, not a named variable inside it". -/
def resolveVariableOrigin (proj : Project) (body : List Stmt) (cur : FPath)
    (varName : String) : Option (FPath × Option String) :=
  match (walkImportAliases body).findSome?
      (fun e => originOfAlias proj cur varName e.1 e.2.1 e.2.2) with
  | some r => some r
  | none =>
    (walkAssigns body).findSome? fun te =>
      match te.1.head? with
      | some (.tName i) => if i = varName then some (cur, some varName) else none
      | _ => none

/-! ### RepoCollector._find_includes -/

/-- Embedding of the nested helper `get_full_name`: render a
`Name`/`Attribute` chain as a dotted string, `none` for anything else
(including an empty intermediate result, which is falsy in Python). -/
def getFullName : Expr → Option String
  | .name i => some i
  | .attrE v a =>
    match getFullName v with
    | some s => if s = "" then none else some (s ++ "." ++ a)
    | none => none
  | _ => none

/-- The contribution of one call node to the include set: the dotted name
of the first positional argument of `<known>.include_router(...)`, `none`
otherwise (in particular when the call has no positional argument). -/
def includeOfCall (knownParents : List String) : Expr → Option String
  | .call (.attrE recv a) args _ _ =>
    if a = "include_router" then
      match getFullName recv with
      | some callerId =>
        if callerId ∈ knownParents then
          match args.head? with
          | some arg0 => getFullName arg0
          | none => none
        else none
      | none => none
    else none
  | _ => none

/-- First-occurrence deduplication (the Python code accumulates into a
`set`; its iteration order is unspecified, see the module comment). -/
def dedupAux : List String → List String → List String
  | _, [] => []
  | seen, a :: l =>
    if a ∈ seen then dedupAux seen l else a :: dedupAux (a :: seen) l

/-- Deduplicate keeping first occurrences. -/
def dedupF (l : List String) : List String := dedupAux [] l

/-- Faithful embedding of `RepoCollector._find_includes` (the `source`
parameter of the Python method is unused there and omitted). -/
def findIncludes (body : List Stmt) (knownParents : List String) : List String :=
  dedupF ((allCallsIn body).filterMap (includeOfCall knownParents))

/-! ### EndpointVisitor -/

/-- View of one (sync or async) function definition as the visitor sees
it: everything `_check_endpoint`/`_add_endpoint` read except the body. -/
structure FuncV where
  fname : String
  decorators : List Deco
  isAsync : Bool
  lineno : Nat
  colOffset : Nat
  endLineno : Nat
  endColOffset : Nat
  deriving Repr

mutual
/-- Function definitions inside one statement, in the depth-first preorder
of `ast.NodeVisitor.generic_visit`. -/
def collectFuncsS : Stmt → List FuncV
  | .funcDef n decs body async l c el ec =>
    ⟨n, decs, async, l, c, el, ec⟩ :: collectFuncsL body
  | .otherS _ body => collectFuncsL body
  | _ => []
/-- Function definitions inside a statement list, in visit order. -/
def collectFuncsL : List Stmt → List FuncV
  | [] => []
  | s :: r => collectFuncsS s ++ collectFuncsL r
end

/-- Recognized HTTP-verb attribute names. -/
def httpVerbs : List String :=
  ["get", "post", "put", "delete", "patch", "options", "head"]

/-- The test `_check_endpoint` applies to a single decorator: a call on an
attribute of a plain name that is a tracked router variable, whose
attribute is an HTTP verb.  On success, the uppercased method and the
route value: the first positional argument's constant payload if it is a
literal constant, otherwise the initial value `""` (keyword arguments are
never consulted).  `none` means the decorator loop continues. -/
def decoMatch (targetVars : List String) : Expr → Option (String × Const)
  | .call (.attrE (.name obj) a) args _ _ =>
    if obj ∈ targetVars then
      if a ∈ httpVerbs then
        some (strUpper a,
          match args.head? with
          | some (.constE c) => c
          | _ => Const.str "")
      else none
    else none
  | _ => none

/-- Faithful embedding of `EndpointVisitor._check_endpoint`: the first
decorator that `decoMatch` accepts wins (the Python loop `break`s). -/
def checkEndpoint (targetVars : List String) (f : FuncV) : Option (String × Const) :=
  f.decorators.findSome? fun d => decoMatch targetVars d.expr

/-- `s[a:]` on characters. -/
def strDropN (s : String) (a : Nat) : String := String.mk (s.data.drop a)

/-- `s[:b]` on characters. -/
def strTakeN (s : String) (b : Nat) : String := String.mk (s.data.take b)

/-- `s[a:b]` on characters. -/
def strSub (s : String) (a b : Nat) : String :=
  String.mk ((s.data.drop a).take (b - a))

/-- `lines[i]` with the out-of-range reads that valid position data never
performs mapped to `""`. -/
def lineAt (srcLines : List String) (i : Nat) : String := srcLines.getD i ""

/-- Embedding of `ast.get_source_segment(source, node)` for a node with
position `(l, c)`–`(el, ec)` (1-based lines, 0-based columns): the slice
of the source text covered by the node.  Line-joining with `"\n"` matches
CPython's keepends-splitlines concatenation for `\n`-separated sources. -/
def getSourceSegment (srcLines : List String) (l c el ec : Nat) : String :=
  if l = el then strSub (lineAt srcLines (l - 1)) c ec
  else
    joinSep "\n"
      ([strDropN (lineAt srcLines (l - 1)) c]
        ++ (List.range' l (el - 1 - l)).map (fun i => lineAt srcLines i)
        ++ [strTakeN (lineAt srcLines (el - 1)) ec])

/-- One emitted endpoint record (`found_endpoints` entries). -/
structure Record where
  id : String
  source : String
  method : String
  route : Const
  functionName : String
  code : String
  hasAsync : Bool
  linesCount : Nat
  deriving DecidableEq, Repr

/-- The sanitized file-path component of an endpoint id
(`relative_path.replace('.py','').replace('.','_').replace('/','_').upper()`). -/
def cleanName (relPath : String) : String :=
  strUpper (replaceSub "/" "_" (replaceSub "." "_" (replaceSub ".py" "" relPath)))

/-- The endpoint id
(`f"{repo_name.upper()}_{clean_name}_{func_name}_{idx}"`). -/
def mkId (repoName relPath fname : String) (idx : Nat) : String :=
  strUpper repoName ++ "_" ++ cleanName relPath ++ "_" ++ fname ++ "_" ++ natStr idx

/-- Faithful embedding of `EndpointVisitor._add_endpoint` for the function
`f`, already-matched method `m` and route `r`; `idx` is the number of
records found so far in this file. -/
def mkRecord (srcLines : List String) (relPath repoName : String) (f : FuncV)
    (m : String) (r : Const) (idx : Nat) : Record :=
  let seg := getSourceSegment srcLines f.lineno f.colOffset f.endLineno f.endColOffset
  { id := mkId repoName relPath f.fname idx
    source := relPath
    method := m
    route := r
    functionName := f.fname
    code := seg
    hasAsync := f.isAsync
    linesCount := if seg = "" then 0 else (seg.data.count '\n') + 1 }

/-- Process the visited functions in order, appending a record for each
match (the per-file ordinal is the length of the accumulator, exactly
`len(self.found_endpoints)` at append time). -/
def visitFold (srcLines : List String) (targetVars : List String)
    (relPath repoName : String) (acc : List Record) : List FuncV → List Record
  | [] => acc
  | f :: fs =>
    match checkEndpoint targetVars f with
    | some (m, r) =>
      visitFold srcLines targetVars relPath repoName
        (acc ++ [mkRecord srcLines relPath repoName f m r acc.length]) fs
    | none => visitFold srcLines targetVars relPath repoName acc fs

/-- Faithful embedding of running `EndpointVisitor` over one parsed file:
`visitor.visit(tree); visitor.found_endpoints`. -/
def visitorRun (srcLines : List String) (targetVars : List String)
    (relPath repoName : String) (body : List Stmt) : List Record :=
  visitFold srcLines targetVars relPath repoName [] (collectFuncsL body)

/-! ### RepoCollector._scan_for_fastapi_instance and entry points -/

/-- Does a call expression instantiate the framework: direct name
`FastAPI` or attribute access ending in `FastAPI`. -/
def isFastapiCtor : Expr → Bool
  | .name i => i = "FastAPI"
  | .attrE _ a => a = "FastAPI"
  | _ => false

/-- The test `_scan_for_fastapi_instance` applies to one `Assign` node:
the right-hand side is a call to the framework constructor and the first
target is a plain name (whose id is returned); `none` keeps scanning. -/
def fastapiTarget (te : List Tgt × Expr) : Option String :=
  match te.2 with
  | .call f _ _ _ =>
    if isFastapiCtor f then
      match te.1.head? with
      | some (.tName i) => some i
      | _ => none
    else none
  | _ => none

/-- Faithful embedding of `RepoCollector._scan_for_fastapi_instance`: the
cheap substring pre-filter, then the first matching assignment in
`ast.walk` order.  A failed parse (tree `none`, i.e. `ast.parse` raising)
yields `none` through the caller's `except: continue`. -/
def scanFile (f : PyFile) : Option String :=
  if containsSub f.text "FastAPI" then
    match f.tree with
    | none => none
    | some body => (walkAssigns body).findSome? fastapiTarget
  else none

/-- The parse events of scanning one file: `ast.parse` is attempted
exactly when the substring pre-filter passes. -/
def scanParse (f : PyFile) : List FPath :=
  if containsSub f.text "FastAPI" then [f.path] else []

/-- All parse events of `_find_entry_points`. -/
def scanParses (proj : Project) : List FPath := proj.files.flatMap scanParse

/-- Faithful embedding of `RepoCollector._find_entry_points`. -/
def findEntryPoints (proj : Project) : List (FPath × String) :=
  proj.files.filterMap fun f => (scanFile f).map fun v => (f.path, v)

/-- The fallback entry-point files: every file literally named `main.py`,
then every file literally named `app.py` (the two glob calls, in project
enumeration order each). -/
def mainAppFiles (proj : Project) : List PyFile :=
  proj.files.filter (fun f => f.path.getLast? = some "main.py")
    ++ proj.files.filter (fun f => f.path.getLast? = some "app.py")

/-- Entry points actually used by `extract_endpoints`: the scan result,
or, when it is empty, the `main.py`/`app.py` fallback with the assumed
variable name `app`. -/
def entryPointsUsed (proj : Project) : List (FPath × String) :=
  let eps := findEntryPoints proj
  if eps.isEmpty then (mainAppFiles proj).map fun f => (f.path, "app") else eps

/-! ### RepoCollector.extract_endpoints (the traversal loop) -/

/-- Handling of one name discovered by `_find_includes` inside
`extract_endpoints`: split a dotted name into the import base (first
component) and the variable to look for (second component), resolve the
base, and produce the queue item, or `none` when the branch is dropped. -/
def processInclude (proj : Project) (body : List Stmt) (cur : FPath)
    (includedName : String) : Option (FPath × List String) :=
  let hasDot := strHasChar includedName '.'
  let parts := strSplitDot includedName
  let baseModuleVar := if hasDot then parts.getD 0 "" else includedName
  let targetVarLook := if hasDot then parts.getD 1 "" else includedName
  match resolveVariableOrigin proj body cur baseModuleVar with
  | none => none
  | some (targetFile, resolvedName) =>
    let finalTargetVar :=
      match resolvedName with
      | none => targetVarLook
      | some r => if hasDot then targetVarLook else r
    some (targetFile, [finalTargetVar])

/-- The traversal state: the FIFO queue of `(file, router-variable set)`
items, the processed set, the output list, and the parse events of the
loop (instrumentation for the at-most-once-parsed claims). -/
structure ExtState where
  queue : List (FPath × List String)
  processed : List FPath
  endpoints : List Record
  loopParses : List FPath

/-- Stage of one loop iteration after the file was read: handle the parse
result, `none` modelling `ast.parse` raising (caught by the `except`,
which leaves only the processed mark and the parse attempt). -/
def processParsed (proj : Project) (repoName : String) (st : ExtState)
    (p : FPath) (routerVars : List String) (rest : List (FPath × List String))
    (file : PyFile) : Option (List Stmt) → ExtState
  | none =>
    { st with
      queue := rest
      processed := p :: st.processed
      loopParses := st.loopParses ++ [p] }
  | some body =>
    let found := visitorRun file.srcLines routerVars (relStr p) repoName body
    let newItems :=
      if routerVars.isEmpty then []
      else (findIncludes body routerVars).filterMap (processInclude proj body p)
    { queue := rest ++ newItems
      processed := p :: st.processed
      endpoints := st.endpoints ++ found
      loopParses := st.loopParses ++ [p] }

/-- Stage of one loop iteration after the lookup: a missing/unreadable
file (`open` raising, caught by the `except`) leaves only the processed
mark; otherwise the file is parsed. -/
def processFound (proj : Project) (repoName : String) (st : ExtState)
    (p : FPath) (routerVars : List String) (rest : List (FPath × List String)) :
    Option PyFile → ExtState
  | none => { st with queue := rest, processed := p :: st.processed }
  | some file => processParsed proj repoName st p routerVars rest file file.tree

/-- One loop iteration body for a not-yet-processed dequeued file
(everything inside the `try`, with the `except` branches made explicit).
The processed mark is set before the `try` body, as in the source. -/
def processItem (proj : Project) (repoName : String) (st : ExtState)
    (p : FPath) (routerVars : List String)
    (rest : List (FPath × List String)) : ExtState :=
  processFound proj repoName st p routerVars rest (findFile proj p)

/-- The `while queue:` loop, fuelled; `none` means the fuel ran out before
the queue emptied (the termination claim exhibits sufficient fuel). -/
def runLoop (proj : Project) (repoName : String) : Nat → ExtState → Option ExtState
  | fuel, st =>
    match st.queue with
    | [] => some st
    | (p, routerVars) :: rest =>
      match fuel with
      | 0 => none
      | n + 1 =>
        if p ∈ st.processed then
          runLoop proj repoName n { st with queue := rest }
        else
          runLoop proj repoName n (processItem proj repoName st p routerVars rest)

/-- The initial traversal state seeded from the entry points
(`queue = [(path, {var_name}) for path, var_name in entry_points]`). -/
def initState (proj : Project) : ExtState :=
  { queue := (entryPointsUsed proj).map fun pv => (pv.1, [pv.2])
    processed := []
    endpoints := []
    loopParses := [] }

/-- The observable outcome of one extraction run. -/
structure RunResult where
  endpoints : List Record
  scanParses : List FPath
  loopParses : List FPath
  processed : List FPath
  deriving DecidableEq, Repr

/-- Faithful embedding of `RepoCollector.extract_endpoints` over a present
project directory, instrumented with the parse events.  `fuel` bounds the
number of loop iterations; the termination theorem shows a sufficient
amount always exists. -/
def extractRun (proj : Project) (repoName : String) (fuel : Nat) : Option RunResult :=
  (runLoop proj repoName fuel (initState proj)).map fun st =>
    { endpoints := st.endpoints
      scanParses := scanParses proj
      loopParses := st.loopParses
      processed := st.processed }

/-! ### General lemmas: decimal rendering round-trips -/

theorem chVal_digCh {d : Nat} (h : d < 10) : chVal (digCh d) = d := by
  interval_cases d <;> rfl

theorem digCh_ne_underscore (d : Nat) : digCh d ≠ '_' := by
  unfold digCh; split <;> decide

theorem valChars_append (l : List Char) (c : Char) :
    valChars (l ++ [c]) = 10 * valChars l + chVal c := by
  simp [valChars, List.foldl_append]

theorem valChars_natChars : ∀ fuel n, n < fuel → valChars (natChars fuel n) = n := by
  intro fuel
  induction fuel with
  | zero => intro n h; omega
  | succ f ih =>
    intro n h
    by_cases h10 : n < 10
    · simp only [natChars, if_pos h10]
      simp [valChars, chVal_digCh h10]
    · simp only [natChars, if_neg h10]
      rw [valChars_append, ih (n / 10) (by omega), chVal_digCh (Nat.mod_lt _ (by omega))]
      omega

theorem natStr_inj {m n : Nat} (h : natStr m = natStr n) : m = n := by
  have hd : natChars (m + 1) m = natChars (n + 1) n := congrArg String.data h
  have hm := valChars_natChars (m + 1) m (by omega)
  have hn := valChars_natChars (n + 1) n (by omega)
  rw [hd, hn] at hm
  omega

theorem natChars_ne_underscore : ∀ fuel n, ∀ c ∈ natChars fuel n, c ≠ '_' := by
  intro fuel
  induction fuel with
  | zero => intro n c hc; simp [natChars] at hc
  | succ f ih =>
    intro n c hc
    by_cases h10 : n < 10
    · simp only [natChars, if_pos h10, List.mem_singleton] at hc
      subst hc; exact digCh_ne_underscore n
    · simp only [natChars, if_neg h10, List.mem_append, List.mem_singleton] at hc
      rcases hc with hc | hc
      · exact ih _ _ hc
      · subst hc; exact digCh_ne_underscore _

theorem takeWhile_until_underscore :
    ∀ (l₁ l₂ : List Char), (∀ c ∈ l₁, c ≠ '_') →
      (l₁ ++ '_' :: l₂).takeWhile (fun c => c ≠ '_') = l₁ := by
  intro l₁ l₂ h
  induction l₁ with
  | nil => simp [List.takeWhile]
  | cons c cs ih =>
    have hc : c ≠ '_' := h c (by simp)
    simp only [List.cons_append, List.takeWhile_cons]
    rw [if_pos (by simpa using hc)]
    rw [ih (fun x hx => h x (by simp [hx]))]

theorem data_append (s t : String) : (s ++ t).data = s.data ++ t.data := rfl

theorem afterLastUnd_of_suffix (a : String) (t : List Char)
    (ht : ∀ c ∈ t, c ≠ '_') :
    afterLastUnd (a ++ "_" ++ String.mk t) = t := by
  unfold afterLastUnd
  have hdata : (a ++ "_" ++ String.mk t).data = a.data ++ '_' :: t := by
    simp [data_append]
  rw [hdata, List.reverse_append]
  have h2 : ('_' :: t).reverse = t.reverse ++ ['_'] := by simp
  rw [h2, List.append_assoc]
  have h3 : ['_'] ++ a.data.reverse = '_' :: a.data.reverse := rfl
  rw [h3, takeWhile_until_underscore t.reverse a.data.reverse
    (fun c hc => ht c (List.mem_reverse.mp hc))]
  exact List.reverse_reverse t

theorem afterLastUnd_mkId (repoName relPath fn : String) (idx : Nat) :
    afterLastUnd (mkId repoName relPath fn idx) = natChars (idx + 1) idx := by
  have h : mkId repoName relPath fn idx =
      (strUpper repoName ++ "_" ++ cleanName relPath ++ "_" ++ fn) ++ "_"
        ++ String.mk (natChars (idx + 1) idx) := by
    simp [mkId, natStr]
  rw [h]
  exact afterLastUnd_of_suffix _ _ (natChars_ne_underscore (idx + 1) idx)

theorem mkId_ordinal_inj {rp rl fn rp2 rl2 fn2 : String} {i j : Nat}
    (h : mkId rp rl fn i = mkId rp2 rl2 fn2 j) : i = j := by
  have h1 := afterLastUnd_mkId rp rl fn i
  have h2 := afterLastUnd_mkId rp2 rl2 fn2 j
  rw [h] at h1
  rw [h1] at h2
  have hi := valChars_natChars (i + 1) i (by omega)
  have hj := valChars_natChars (j + 1) j (by omega)
  rw [h2] at hi
  omega

/-! ### General lemmas: the breadth-first walk is fuel-insensitive -/

theorem sizeS_pos (s : Stmt) : 1 ≤ sizeS s := by
  cases s <;> simp [sizeS]

theorem sizeS_eq_children (s : Stmt) : sizeS s = 1 + sizeL (stmtChildStmts s) := by
  cases s <;> simp [sizeS, stmtChildStmts, sizeL]

theorem sizeL_append (a b : List Stmt) : sizeL (a ++ b) = sizeL a + sizeL b := by
  induction a with
  | nil => simp [sizeL]
  | cons s r ih => simp [sizeL, ih]; omega

theorem sizeL_flatMap_children :
    ∀ l : List Stmt, sizeL (l.flatMap stmtChildStmts) + l.length = sizeL l := by
  intro l
  induction l with
  | nil => simp [sizeL]
  | cons s r ih =>
    simp only [List.flatMap_cons, sizeL_append, List.length_cons, sizeL]
    have := sizeS_eq_children s
    omega

theorem sizeL_pos_of_ne_nil {l : List Stmt} (h : l ≠ []) : 1 ≤ sizeL l := by
  cases l with
  | nil => exact absurd rfl h
  | cons s r => have := sizeS_pos s; simp [sizeL]; omega

theorem bfsAux_fuel_irrel :
    ∀ f1 f2 l, sizeL l ≤ f1 → sizeL l ≤ f2 → bfsAux f1 l = bfsAux f2 l := by
  intro f1
  induction f1 with
  | zero =>
    intro f2 l h1 _
    cases l with
    | nil => cases f2 <;> rfl
    | cons s r => have := sizeL_pos_of_ne_nil (l := s :: r) (by simp); omega
  | succ a ih =>
    intro f2 l h1 h2
    cases l with
    | nil => cases f2 <;> rfl
    | cons s r =>
      have hpos := sizeL_pos_of_ne_nil (l := s :: r) (by simp)
      cases f2 with
      | zero => omega
      | succ b =>
        simp only [bfsAux]
        congr 1
        have hch : sizeL ((s :: r).flatMap stmtChildStmts) + (s :: r).length
            = sizeL (s :: r) := sizeL_flatMap_children _
        have hlen : 1 ≤ (s :: r).length := by simp
        exact ih b _ (by omega) (by omega)

theorem bfsAll_unfold (l : List Stmt) (h : l ≠ []) :
    bfsAll l = l ++ bfsAll (l.flatMap stmtChildStmts) := by
  unfold bfsAll
  cases l with
  | nil => exact absurd rfl h
  | cons s r =>
    have hpos := sizeL_pos_of_ne_nil (l := s :: r) (by simp)
    obtain ⟨m, hm⟩ : ∃ m, sizeL (s :: r) = m + 1 := ⟨sizeL (s :: r) - 1, by omega⟩
    rw [hm]
    simp only [bfsAux]
    congr 1
    have hch : sizeL ((s :: r).flatMap stmtChildStmts) + (s :: r).length
        = sizeL (s :: r) := sizeL_flatMap_children _
    have hlen : 1 ≤ (s :: r).length := by simp
    exact bfsAux_fuel_irrel m _ _ (by omega) (by omega)

/-! ### General lemmas: size bounds for the traversal potential -/

theorem dedupAux_length_le : ∀ (l seen : List String), (dedupAux seen l).length ≤ l.length := by
  intro l
  induction l with
  | nil => intro seen; simp [dedupAux]
  | cons a r ih =>
    intro seen
    simp only [dedupAux]
    split
    · exact Nat.le_trans (ih seen) (by simp)
    · simpa using Nat.succ_le_succ (ih (a :: seen))

theorem dedupF_length_le (l : List String) : (dedupF l).length ≤ l.length :=
  dedupAux_length_le l []

theorem findIncludes_length_le (body : List Stmt) (vars : List String) :
    (findIncludes body vars).length ≤ (allCallsIn body).length :=
  Nat.le_trans (dedupF_length_le _) (List.length_filterMap_le _ _)

theorem sum_map_le_sum_map {α : Type} (l : List α) (g g' : α → Nat)
    (h : ∀ x ∈ l, g' x ≤ g x) : (l.map g').sum ≤ (l.map g).sum := by
  induction l with
  | nil => simp
  | cons a r ih =>
    simp only [List.map_cons, List.sum_cons]
    have := h a (by simp)
    have := ih (fun x hx => h x (by simp [hx]))
    omega

theorem sum_map_drop_mem {α : Type} (l : List α) (g g' : α → Nat) (x : α)
    (hx : x ∈ l) (hle : ∀ y ∈ l, g' y ≤ g y) (hx0 : g' x = 0) :
    (l.map g').sum + g x ≤ (l.map g).sum := by
  induction l with
  | nil => simp at hx
  | cons a r ih =>
    simp only [List.map_cons, List.sum_cons]
    rcases List.mem_cons.mp hx with rfl | hxr
    · have hsum := sum_map_le_sum_map r g g' (fun y hy => hle y (by simp [hy]))
      omega
    · have ha := hle a (by simp)
      have := ih hxr (fun y hy => hle y (by simp [hy]))
      omega

/-! ### General lemmas: the per-file ordinal inside emitted ids -/

theorem visitFold_ordinals (srcLines vars : List String) (relPath repoName : String) :
    ∀ (fs : List FuncV) (acc : List Record),
      (∀ k (hk : k < acc.length), afterLastUnd (acc[k].id) = natChars (k + 1) k) →
      ∀ k (hk : k < (visitFold srcLines vars relPath repoName acc fs).length),
        afterLastUnd ((visitFold srcLines vars relPath repoName acc fs)[k].id)
          = natChars (k + 1) k := by
  intro fs
  induction fs with
  | nil => intro acc hacc; simpa [visitFold] using hacc
  | cons f fs ih =>
    intro acc hacc
    cases hc : checkEndpoint vars f with
    | none =>
      simp only [visitFold, hc]
      exact ih acc hacc
    | some mr =>
      obtain ⟨m, r⟩ := mr
      simp only [visitFold, hc]
      apply ih
      intro k hk
      rcases Nat.lt_or_ge k acc.length with hlt | hge
      · rw [List.getElem_append_left hlt]
        exact hacc k hlt
      · have hlen : k = acc.length := by
          have := hk
          simp only [List.length_append, List.length_singleton] at this
          omega
        subst hlen
        rw [List.getElem_concat_length]
        · simp only [mkRecord]
          exact afterLastUnd_mkId repoName relPath f.fname acc.length
        · rfl

theorem visitorRun_ordinals (srcLines vars : List String) (relPath repoName : String)
    (body : List Stmt) :
    ∀ k (hk : k < (visitorRun srcLines vars relPath repoName body).length),
      afterLastUnd ((visitorRun srcLines vars relPath repoName body)[k].id)
        = natChars (k + 1) k := by
  exact visitFold_ordinals srcLines vars relPath repoName (collectFuncsL body) []
    (by intro k hk; simp at hk)

/-- C1 (amended): within one file's visitor run, the emitted ids are
pairwise distinct — the trailing underscore-separated component of each id
is the decimal rendering of the record's zero-based per-file ordinal, and
those renderings differ.  (Across distinct files of one run the claimed
global uniqueness fails, see the counterexample: path sanitization can
collide.) -/
theorem C1_per_file_ids_nodup (srcLines vars : List String)
    (relPath repoName : String) (body : List Stmt) :
    ((visitorRun srcLines vars relPath repoName body).map (·.id)).Nodup := by
  rw [List.nodup_iff_injective_get]
  intro i j hij
  have hi : i.val < (visitorRun srcLines vars relPath repoName body).length := by
    simpa using i.isLt
  have hj : j.val < (visitorRun srcLines vars relPath repoName body).length := by
    simpa using j.isLt
  rw [List.get_eq_getElem, List.get_eq_getElem, List.getElem_map, List.getElem_map] at hij
  have ho1 := visitorRun_ordinals srcLines vars relPath repoName body i.val hi
  have ho2 := visitorRun_ordinals srcLines vars relPath repoName body j.val hj
  rw [hij, ho2] at ho1
  have hv1 := valChars_natChars (i.val + 1) i.val (by omega)
  have hv2 := valChars_natChars (j.val + 1) j.val (by omega)
  have hval := congrArg valChars ho1
  rw [hv1, hv2] at hval
  exact Fin.ext hval.symm

/-- The decorator expression `@app.get("/x")` with its source line. -/
def decoGetX : Deco :=
  ⟨.call (.attrE (.name "app") "get") [.constE (.str "/x")] [] [], 2⟩

/-- A module body with `app = FastAPI()` and one GET endpoint `f`. -/
def treeC1 : List Stmt :=
  [ .assign [.tName "app"] (.call (.name "FastAPI") [] [] []),
    .funcDef "f" [decoGetX] [] false 3 0 4 12 ]

/-- Source lines matching `treeC1`. -/
def linesC1 : List String :=
  ["app = FastAPI()", "@app.get(\"/x\")", "def f():", "    return 1"]

/-- A project with two entry-point files whose sanitized relative paths
collide: `a/b.py` and `a_b.py` both sanitize to `A_B`. -/
def projC1 : Project :=
  ⟨[ { path := ["a", "b.py"], text := "FastAPI", tree := some treeC1, srcLines := linesC1 },
     { path := ["a_b.py"], text := "FastAPI", tree := some treeC1, srcLines := linesC1 } ]⟩

/-- C1 (counterexample): in the run over `projC1`, both emitted records
carry the id `REPO_A_B_f_0` — ids are not pairwise distinct within one
extraction run, because the path sanitization `a/b.py ↦ A_B` and
`a_b.py ↦ A_B` collides and the ordinal is only per-file. -/
theorem C1_counterexample :
    (extractRun projC1 "repo" 4).map (fun r => r.endpoints.map (·.id))
        = some ["REPO_A_B_f_0", "REPO_A_B_f_0"]
    ∧ ¬ (["REPO_A_B_f_0", "REPO_A_B_f_0"] : List String).Nodup := by
  exact ⟨by decide, by decide⟩

/-! ### Claim C2: the route field -/

/-- The route value `_check_endpoint` derives from the positional
arguments of the matched decorator call (the amended description: the
first positional argument's constant payload when it is a literal
constant, otherwise the initial value `""`). -/
def routeOfArgs (args : List Expr) : Const :=
  match args.head? with
  | some (.constE c) => c
  | _ => Const.str ""

/-- C2 (amended): for every emitted endpoint, the matched decorator
determines the route as `routeOfArgs` of its positional arguments — the
first positional argument's literal-constant value when present, otherwise
the empty string `""` (not the sentinel `"unknown"`), and keyword
arguments (`path`/`url` included) are never consulted. -/
theorem C2_route_from_first_positional :
    (∀ (vars : List String) (f : FuncV),
        checkEndpoint vars f = f.decorators.findSome? fun d => decoMatch vars d.expr)
    ∧ (∀ (vars : List String) (fn : Expr) (args : List Expr)
          (kn kn2 : List (Option String)) (kv kv2 : List Expr),
        decoMatch vars (.call fn args kn kv) = decoMatch vars (.call fn args kn2 kv2))
    ∧ (∀ (vars : List String) (fn : Expr) (args : List Expr)
          (kn : List (Option String)) (kv : List Expr) (m : String) (r : Const),
        decoMatch vars (.call fn args kn kv) = some (m, r) → r = routeOfArgs args) := by
  refine ⟨fun _ _ => rfl, ?_, ?_⟩
  · intro vars fn args kn kn2 kv kv2
    cases fn with
    | attrE v a => cases v <;> rfl
    | name _ => rfl
    | call _ _ _ _ => rfl
    | constE _ => rfl
    | otherE _ => rfl
  · intro vars fn args kn kv m r h
    cases fn with
    | attrE v a =>
      cases v with
      | name obj =>
        simp only [decoMatch] at h
        split_ifs at h with h1 h2
        have := (Option.some.inj h)
        have hr : r = routeOfArgs args := by
          have hsnd := congrArg Prod.snd this
          simpa [routeOfArgs] using hsnd.symm
        exact hr
      | attrE _ _ => simp [decoMatch] at h
      | call _ _ _ _ => simp [decoMatch] at h
      | constE _ => simp [decoMatch] at h
      | otherE _ => simp [decoMatch] at h
    | name _ => simp [decoMatch] at h
    | call _ _ _ _ => simp [decoMatch] at h
    | constE _ => simp [decoMatch] at h
    | otherE _ => simp [decoMatch] at h

/-- A function whose route decorator's first positional argument is a
variable, not a string literal. -/
def funcVarRoute : FuncV :=
  ⟨"g1", [⟨.call (.attrE (.name "app") "get") [.name "ROUTE_VAR"] [] [], 1⟩], false, 2, 0, 3, 0⟩

/-- A function whose route decorator has no positional argument, only a
string-valued `path` keyword argument. -/
def funcKwRoute : FuncV :=
  ⟨"g2", [⟨.call (.attrE (.name "app") "get") [] [some "path"] [.constE (.str "/kw")], 4⟩], false, 5, 0, 6, 0⟩

/-- The module body containing `funcVarRoute` and `funcKwRoute`. -/
def treeC2 : List Stmt :=
  [ .funcDef "g1" funcVarRoute.decorators [] false 2 0 3 0,
    .funcDef "g2" funcKwRoute.decorators [] false 5 0 6 0 ]

/-- C2 (counterexample): a decorator whose first argument is a variable
yields route `""`, not the claimed sentinel `"unknown"`; and a decorator
carrying only a string-valued `path` keyword argument also yields `""`,
not the keyword's value. -/
theorem C2_counterexample :
    (visitorRun [] ["app"] "m.py" "r" treeC2).map (·.route)
        = [Const.str "", Const.str ""]
    ∧ Const.str "" ≠ Const.str "unknown"
    ∧ Const.str "" ≠ Const.str "/kw" := by
  exact ⟨by decide, by decide, by decide⟩

/-- C2 (witness): the amended theorem applied at a concrete decorator
`@app.get("/r", path="/kw")`. -/
theorem C2_route_from_first_positional_w :
    (checkEndpoint ["app"] funcVarRoute
        = funcVarRoute.decorators.findSome? fun d => decoMatch ["app"] d.expr)
    ∧ (decoMatch ["app"]
          (.call (.attrE (.name "app") "get") [.constE (.str "/r")] [some "path"] [.constE (.str "/kw")])
        = decoMatch ["app"] (.call (.attrE (.name "app") "get") [.constE (.str "/r")] [] []))
    ∧ Const.str "/r" = routeOfArgs [.constE (.str "/r")] := by
  refine ⟨C2_route_from_first_positional.1 ["app"] funcVarRoute, ?_, ?_⟩
  · exact C2_route_from_first_positional.2.1 ["app"] (.attrE (.name "app") "get")
      [.constE (.str "/r")] [some "path"] [] [.constE (.str "/kw")] []
  · exact C2_route_from_first_positional.2.2 ["app"] (.attrE (.name "app") "get")
      [.constE (.str "/r")] [] [] "GET" (Const.str "/r") (by decide)

/-! ### Claim C3: the code field -/

theorem mem_visitFold (srcLines vars : List String) (relPath repoName : String) :
    ∀ (fs : List FuncV) (acc : List Record) (r : Record),
      r ∈ visitFold srcLines vars relPath repoName acc fs →
      r ∈ acc ∨ ∃ f ∈ fs, ∃ m c idx, checkEndpoint vars f = some (m, c)
        ∧ r = mkRecord srcLines relPath repoName f m c idx := by
  intro fs
  induction fs with
  | nil => intro acc r hr; exact Or.inl (by simpa [visitFold] using hr)
  | cons f fs ih =>
    intro acc r hr
    cases hc : checkEndpoint vars f with
    | none =>
      simp only [visitFold, hc] at hr
      rcases ih acc r hr with h | ⟨f', hf', h⟩
      · exact Or.inl h
      · exact Or.inr ⟨f', by simp [hf'], h⟩
    | some mr =>
      obtain ⟨m, c⟩ := mr
      simp only [visitFold, hc] at hr
      rcases ih _ r hr with h | ⟨f', hf', h⟩
      · rcases List.mem_append.mp h with h | h
        · exact Or.inl h
        · refine Or.inr ⟨f, by simp, m, c, acc.length, hc, ?_⟩
          simpa using h
      · exact Or.inr ⟨f', by simp [hf'], h⟩

/-- The source segment of a node only reads the lines of its own span:
two line lists that agree from line `l` through line `el` give the same
segment.  In particular lines strictly before the node's start line —
where CPython places the decorators of a function — cannot affect it. -/
theorem getSourceSegment_agree (lines1 lines2 : List String) (l c el ec : Nat)
    (hle : l ≤ el)
    (h : ∀ i, l - 1 ≤ i → i ≤ el - 1 → lineAt lines1 i = lineAt lines2 i) :
    getSourceSegment lines1 l c el ec = getSourceSegment lines2 l c el ec := by
  unfold getSourceSegment
  by_cases heq : l = el
  · rw [if_pos heq, if_pos heq, h (l - 1) (by omega) (by omega)]
  · rw [if_neg heq, if_neg heq]
    have h1 : lineAt lines1 (l - 1) = lineAt lines2 (l - 1) := h _ (by omega) (by omega)
    have h3 : lineAt lines1 (el - 1) = lineAt lines2 (el - 1) := h _ (by omega) (by omega)
    have h2 : (List.range' l (el - 1 - l)).map (fun i => lineAt lines1 i)
        = (List.range' l (el - 1 - l)).map (fun i => lineAt lines2 i) := by
      apply List.map_congr_left
      intro i hi
      have hib := List.mem_range'_1.mp hi
      exact h i (by omega) (by omega)
    rw [h1, h2, h3]

/-- C3 (amended): every emitted record's `code` field is the source
segment of the function node itself, which CPython positions at the
`def`/`async` keyword — the span from the function's own start line
through its end line.  The segment only depends on the lines of that
span, so the decorator lines, which lie strictly before it, are not part
of the code field (re-parsing it therefore yields an undecorated
function definition). -/
theorem C3_code_is_def_span (srcLines vars : List String) (relPath repoName : String)
    (body : List Stmt) (r : Record)
    (hr : r ∈ visitorRun srcLines vars relPath repoName body) :
    ∃ f ∈ collectFuncsL body,
      (∃ mr, checkEndpoint vars f = some mr)
      ∧ r.code = getSourceSegment srcLines f.lineno f.colOffset f.endLineno f.endColOffset
      ∧ ∀ srcLines2, f.lineno ≤ f.endLineno →
          (∀ i, f.lineno - 1 ≤ i → i ≤ f.endLineno - 1 →
            lineAt srcLines i = lineAt srcLines2 i) →
          getSourceSegment srcLines2 f.lineno f.colOffset f.endLineno f.endColOffset
            = r.code := by
  rcases mem_visitFold srcLines vars relPath repoName (collectFuncsL body) [] r hr with
    h | ⟨f, hf, m, c, idx, hc, hrec⟩
  · simp at h
  · refine ⟨f, hf, ⟨(m, c), hc⟩, ?_, ?_⟩
    · rw [hrec]; rfl
    · intro srcLines2 hle hagree
      rw [hrec]
      exact (getSourceSegment_agree srcLines srcLines2 _ _ _ _ hle hagree).symm

/-- The module body of the C3 exemplar: `@app.get("/x")` on line 1,
`def f():` on line 2, body through line 3. -/
def treeC3 : List Stmt := [.funcDef "f" [⟨decoGetX.expr, 1⟩] [] false 2 0 3 12]

/-- Source lines matching `treeC3`. -/
def linesC3 : List String := ["@app.get(\"/x\")", "def f():", "    return 1"]

/-- C3 (counterexample): the emitted code field starts at the `def` line
and does not include the decorator line — it differs from the claimed
decorator-inclusive slice (which `getSourceSegment` produces when started
at the decorator's line 1), and contains no `@` at all, so re-parsing it
cannot yield a decorated function definition. -/
theorem C3_counterexample :
    (visitorRun linesC3 ["app"] "main.py" "r" treeC3).map (·.code)
        = ["def f():\n    return 1"]
    ∧ getSourceSegment linesC3 1 0 3 12 = "@app.get(\"/x\")\ndef f():\n    return 1"
    ∧ ("def f():\n    return 1" : String) ≠ "@app.get(\"/x\")\ndef f():\n    return 1"
    ∧ containsSub "def f():\n    return 1" "@" = false := by
  exact ⟨by decide, by decide, by decide, by decide⟩

/-- The single record the C3 exemplar emits. -/
def recC3 : Record :=
  mkRecord linesC3 "main.py" "r" ⟨"f", [⟨decoGetX.expr, 1⟩], false, 2, 0, 3, 12⟩
    "GET" (Const.str "/x") 0

/-- C3 (witness): the amended theorem applied to the concrete record of
the C3 exemplar. -/
theorem C3_code_is_def_span_w :
    ∃ f ∈ collectFuncsL treeC3,
      (∃ mr, checkEndpoint ["app"] f = some mr)
      ∧ recC3.code = getSourceSegment linesC3 f.lineno f.colOffset f.endLineno f.endColOffset
      ∧ ∀ srcLines2, f.lineno ≤ f.endLineno →
          (∀ i, f.lineno - 1 ≤ i → i ≤ f.endLineno - 1 →
            lineAt linesC3 i = lineAt srcLines2 i) →
          getSourceSegment srcLines2 f.lineno f.colOffset f.endLineno f.endColOffset
            = recC3.code :=
  C3_code_is_def_span linesC3 ["app"] "main.py" "r" treeC3 recC3 (by decide)

/-! ### Claim C4: how often a file is parsed -/

theorem processItem_eq_nofile {proj : Project} {repoName : String} {st : ExtState}
    {p : FPath} {vars : List String} {rest : List (FPath × List String)}
    (hf : findFile proj p = none) :
    processItem proj repoName st p vars rest
      = { st with queue := rest, processed := p :: st.processed } := by
  unfold processItem
  rw [hf]
  rfl

theorem processItem_eq_noparse {proj : Project} {repoName : String} {st : ExtState}
    {p : FPath} {vars : List String} {rest : List (FPath × List String)}
    {file : PyFile} (hf : findFile proj p = some file) (ht : file.tree = none) :
    processItem proj repoName st p vars rest
      = { st with
          queue := rest
          processed := p :: st.processed
          loopParses := st.loopParses ++ [p] } := by
  unfold processItem
  rw [hf]
  show processParsed proj repoName st p vars rest file file.tree = _
  rw [ht]
  rfl

theorem processItem_eq_parsed {proj : Project} {repoName : String} {st : ExtState}
    {p : FPath} {vars : List String} {rest : List (FPath × List String)}
    {file : PyFile} {body : List Stmt}
    (hf : findFile proj p = some file) (ht : file.tree = some body) :
    processItem proj repoName st p vars rest
      = { queue := rest ++ (if vars.isEmpty then []
            else (findIncludes body vars).filterMap (processInclude proj body p))
          processed := p :: st.processed
          endpoints := st.endpoints
            ++ visitorRun file.srcLines vars (relStr p) repoName body
          loopParses := st.loopParses ++ [p] } := by
  unfold processItem
  rw [hf]
  show processParsed proj repoName st p vars rest file file.tree = _
  rw [ht]
  rfl

theorem processItem_processed (proj : Project) (repoName : String) (st : ExtState)
    (p : FPath) (vars : List String) (rest : List (FPath × List String)) :
    (processItem proj repoName st p vars rest).processed = p :: st.processed := by
  cases hf : findFile proj p with
  | none => rw [processItem_eq_nofile hf]
  | some file =>
    cases ht : file.tree with
    | none => rw [processItem_eq_noparse hf ht]
    | some body => rw [processItem_eq_parsed hf ht]

theorem processItem_loopParses (proj : Project) (repoName : String) (st : ExtState)
    (p : FPath) (vars : List String) (rest : List (FPath × List String)) :
    (processItem proj repoName st p vars rest).loopParses = st.loopParses
    ∨ (processItem proj repoName st p vars rest).loopParses = st.loopParses ++ [p] := by
  cases hf : findFile proj p with
  | none => rw [processItem_eq_nofile hf]; exact Or.inl rfl
  | some file =>
    cases ht : file.tree with
    | none => rw [processItem_eq_noparse hf ht]; exact Or.inr rfl
    | some body => rw [processItem_eq_parsed hf ht]; exact Or.inr rfl

theorem runLoop_nil {proj : Project} {nm : String} {fuel : Nat} {st : ExtState}
    (h : st.queue = []) : runLoop proj nm fuel st = some st := by
  conv_lhs => unfold runLoop
  rw [h]

theorem runLoop_cons_zero {proj : Project} {nm : String} {st : ExtState}
    {p : FPath} {vars : List String} {rest : List (FPath × List String)}
    (h : st.queue = (p, vars) :: rest) : runLoop proj nm 0 st = none := by
  conv_lhs => unfold runLoop
  rw [h]

theorem runLoop_cons_succ {proj : Project} {nm : String} {n : Nat} {st : ExtState}
    {p : FPath} {vars : List String} {rest : List (FPath × List String)}
    (h : st.queue = (p, vars) :: rest) :
    runLoop proj nm (n + 1) st =
      if p ∈ st.processed then runLoop proj nm n { st with queue := rest }
      else runLoop proj nm n (processItem proj nm st p vars rest) := by
  conv_lhs => unfold runLoop
  rw [h]

theorem runLoop_parses_nodup (proj : Project) (repoName : String) :
    ∀ (fuel : Nat) (st st' : ExtState),
      st.loopParses.Nodup → (∀ q ∈ st.loopParses, q ∈ st.processed) →
      runLoop proj repoName fuel st = some st' → st'.loopParses.Nodup := by
  intro fuel
  induction fuel with
  | zero =>
    intro st st' hnd hsub hrun
    cases hq : st.queue with
    | nil =>
      rw [runLoop_nil hq] at hrun
      cases hrun
      exact hnd
    | cons hd tl =>
      obtain ⟨p, vars⟩ := hd
      rw [runLoop_cons_zero hq] at hrun
      cases hrun
  | succ n ih =>
    intro st st' hnd hsub hrun
    cases hq : st.queue with
    | nil =>
      rw [runLoop_nil hq] at hrun
      cases hrun
      exact hnd
    | cons hd tl =>
      obtain ⟨p, vars⟩ := hd
      rw [runLoop_cons_succ hq] at hrun
      by_cases hp : p ∈ st.processed
      · rw [if_pos hp] at hrun
        exact ih { st with queue := tl } st' hnd hsub hrun
      · rw [if_neg hp] at hrun
        apply ih (processItem proj repoName st p vars tl) st' ?_ ?_ hrun
        · rcases processItem_loopParses proj repoName st p vars tl with h | h
          · rwa [h]
          · rw [h]
            apply List.Nodup.append hnd (by simp)
            intro q hq1 hq2
            simp only [List.mem_singleton] at hq2
            subst hq2
            exact hp (hsub q hq1)
        · intro q hq1
          rw [processItem_processed]
          rcases processItem_loopParses proj repoName st p vars tl with h | h
          · rw [h] at hq1
            exact List.mem_cons_of_mem _ (hsub q hq1)
          · rw [h] at hq1
            rcases List.mem_append.mp hq1 with h1 | h1
            · exact List.mem_cons_of_mem _ (hsub q h1)
            · simp only [List.mem_singleton] at h1
              subst h1
              exact List.mem_cons_self _ _

theorem mem_scanParses (proj : Project) (q : FPath) (hq : q ∈ scanParses proj) :
    q ∈ proj.files.map (·.path) := by
  unfold scanParses at hq
  rcases List.mem_flatMap.mp hq with ⟨f, hf, hqf⟩
  unfold scanParse at hqf
  split at hqf
  · simp only [List.mem_singleton] at hqf
    subst hqf
    exact List.mem_map_of_mem _ hf
  · simp at hqf

theorem flatMap_scanParse_nodup :
    ∀ files : List PyFile, (files.map (·.path)).Nodup →
      (files.flatMap scanParse).Nodup := by
  intro files
  induction files with
  | nil => intro _; simp
  | cons f fs ih =>
    intro hpaths
    simp only [List.map_cons, List.nodup_cons] at hpaths
    simp only [List.flatMap_cons]
    apply List.Nodup.append
    · unfold scanParse; split <;> simp
    · exact ih hpaths.2
    · intro q hq1 hq2
      have hq1' : q = f.path := by
        unfold scanParse at hq1
        split at hq1 <;> simp_all
      subst hq1'
      exact hpaths.1 (mem_scanParses ⟨fs⟩ _ hq2)

theorem scanParses_nodup (proj : Project) (hpaths : (proj.files.map (·.path)).Nodup) :
    (scanParses proj).Nodup :=
  flatMap_scanParse_nodup proj.files hpaths

/-- C4 (amended): within the breadth-first traversal loop, every file is
parsed at most once (the `processed` set guards re-parsing), and the
entry-point scan parses each file at most once as well; but — see the
counterexample — a file can be parsed once by the scan *and* once by the
loop, so over the whole run "at most once" fails. -/
theorem C4_loop_parses_at_most_once (proj : Project) (repoName : String)
    (fuel : Nat) (res : RunResult)
    (hrun : extractRun proj repoName fuel = some res) :
    res.loopParses.Nodup
    ∧ ((proj.files.map (·.path)).Nodup → res.scanParses.Nodup) := by
  unfold extractRun at hrun
  cases hloop : runLoop proj repoName fuel (initState proj) with
  | none => rw [hloop] at hrun; simp at hrun
  | some st =>
    rw [hloop] at hrun
    simp only [Option.map_some'] at hrun
    have hres := Option.some.inj hrun
    subst hres
    constructor
    · exact runLoop_parses_nodup proj repoName fuel (initState proj) st
        (by simp [initState]) (by simp [initState]) hloop
    · intro hpaths
      exact scanParses_nodup proj hpaths

/-- A single-file project whose `main.py` instantiates the framework. -/
def projC4 : Project :=
  ⟨[{ path := ["main.py"], text := "FastAPI",
      tree := some [.assign [.tName "app"] (.call (.name "FastAPI") [] [] [])],
      srcLines := ["app = FastAPI()"] }]⟩

/-- C4 (counterexample): in the run over `projC4`, the file `main.py` is
parsed twice — once by the entry-point scan and once by the traversal
loop — refuting "parsed at most once during the run". -/
theorem C4_counterexample :
    (extractRun projC4 "repo" 2).map
        (fun r => (r.scanParses ++ r.loopParses).count ["main.py"]) = some 2
    ∧ ¬ (2 ≤ 1) := by
  exact ⟨by decide, by decide⟩

/-- C4 (witness): the amended theorem applied to the concrete run over
`projC4`. -/
theorem C4_loop_parses_at_most_once_w :
    (RunResult.mk [] [["main.py"]] [["main.py"]] [["main.py"]]).loopParses.Nodup
    ∧ ((projC4.files.map (·.path)).Nodup
        → (RunResult.mk ([] : List Record) [["main.py"]] [["main.py"]] [["main.py"]]).scanParses.Nodup) :=
  C4_loop_parses_at_most_once projC4 "repo" 2
    (RunResult.mk [] [["main.py"]] [["main.py"]] [["main.py"]]) (by decide)

/-! ### Claim C5: the entry-point scan -/

/-- Boolean test for an `ast.Assign` statement. -/
def isAssignB : Stmt → Bool
  | .assign _ _ => true
  | _ => false

/-- C5 (amended): the entry-point scan parses a file only when its text
contains the substring `FastAPI`; it yields at most one entry point per
file, namely the target of the first matching assignment in breadth-first
`ast.walk` order — which visits top-level statements before nested ones
but is *not* restricted to top-level assignments (see the
counterexample). -/
theorem C5_scan_first_walk_assign :
    (∀ f : PyFile, containsSub f.text "FastAPI" = false →
      scanFile f = none ∧ scanParse f = [])
    ∧ (∀ (f : PyFile) (v : String), scanFile f = some v →
        containsSub f.text "FastAPI" = true
        ∧ ∃ body, f.tree = some body
            ∧ (walkAssigns body).findSome? fastapiTarget = some v)
    ∧ (∀ body : List Stmt, body ≠ [] →
        bfsAll body = body ++ bfsAll (body.flatMap stmtChildStmts)) := by
  refine ⟨?_, ?_, bfsAll_unfold⟩
  · intro f hf
    unfold scanFile scanParse
    rw [hf]
    exact ⟨by simp, by simp⟩
  · intro f v hv
    unfold scanFile at hv
    by_cases hc : containsSub f.text "FastAPI" = true
    · rw [if_pos hc] at hv
      refine ⟨hc, ?_⟩
      cases ht : f.tree with
      | none => rw [ht] at hv; cases hv
      | some body => rw [ht] at hv; exact ⟨body, rfl, hv⟩
    · rw [if_neg hc] at hv
      cases hv

/-- A file whose only framework-instantiating assignment is nested inside
a function body (no top-level assignment at all). -/
def fileC5 : PyFile :=
  { path := ["nested.py"], text := "x = FastAPI",
    tree := some [.funcDef "make" []
      [.assign [.tName "my_app"] (.call (.name "FastAPI") [] [] [])] false 1 0 3 0],
    srcLines := ["def make():", "    my_app = FastAPI()", "    return my_app"] }

/-- C5 (counterexample): `fileC5` has no top-level assignment, yet the
scan returns the variable `my_app` bound inside a function body —
`ast.walk` visits every node, so the claimed restriction to top-level
simple assignments is false. -/
theorem C5_counterexample :
    scanFile fileC5 = some "my_app"
    ∧ (fileC5.tree.map fun body => body.all fun s => !(isAssignB s)) = some true := by
  exact ⟨by decide, by decide⟩

/-- A file whose text does not contain the substring `FastAPI`. -/
def filePlain : PyFile :=
  { path := ["util.py"], text := "def helper(): pass", tree := none, srcLines := [] }

/-- C5 (witness): the amended theorem applied to `filePlain` (pre-filter
rejects, no parse) and `fileC5` (scan succeeds through the walk). -/
theorem C5_scan_first_walk_assign_w :
    (scanFile filePlain = none ∧ scanParse filePlain = [])
    ∧ (containsSub fileC5.text "FastAPI" = true
        ∧ ∃ body, fileC5.tree = some body
            ∧ (walkAssigns body).findSome? fastapiTarget = some "my_app")
    ∧ bfsAll [Stmt.exprStmt (.name "x")]
        = [Stmt.exprStmt (.name "x")]
          ++ bfsAll ([Stmt.exprStmt (.name "x")].flatMap stmtChildStmts) :=
  ⟨C5_scan_first_walk_assign.1 filePlain (by decide),
   C5_scan_first_walk_assign.2.1 fileC5 "my_app" (by decide),
   C5_scan_first_walk_assign.2.2 [Stmt.exprStmt (.name "x")] (by simp)⟩

/-! ### Claim C6: relative import resolution -/

theorem splitOnChar_ne_nil (c : Char) : ∀ l : List Char, splitOnChar c l ≠ [] := by
  intro l
  induction l with
  | nil => simp [splitOnChar]
  | cons x xs ih =>
    unfold splitOnChar
    split
    · simp
    · split
      · simp
      · simp

theorem mem_splitOnChar_no_sep (c : Char) :
    ∀ (l : List Char) (piece : List Char), piece ∈ splitOnChar c l → c ∉ piece := by
  intro l
  induction l with
  | nil =>
    intro piece hp
    simp [splitOnChar] at hp
    subst hp
    simp
  | cons x xs ih =>
    intro piece hp
    unfold splitOnChar at hp
    by_cases hx : x = c
    · rw [if_pos hx] at hp
      rcases List.mem_cons.mp hp with rfl | hp
      · simp
      · exact ih piece hp
    · rw [if_neg hx] at hp
      cases hrec : splitOnChar c xs with
      | nil => exact absurd hrec (splitOnChar_ne_nil c xs)
      | cons h t =>
        rw [hrec] at hp
        rcases List.mem_cons.mp hp with rfl | hp
        · intro hmem
          rcases List.mem_cons.mp hmem with rfl | hmem
          · exact hx rfl
          · exact ih h (by rw [hrec]; exact List.mem_cons_self _ _) hmem
        · exact ih piece (by rw [hrec]; exact List.mem_cons_of_mem _ hp)

theorem strSplitDot_ne_nil (m : String) : strSplitDot m ≠ [] := by
  unfold strSplitDot
  intro h
  exact splitOnChar_ne_nil '.' m.data (List.map_eq_nil_iff.mp h)

theorem mem_strSplitDot_no_dot (m : String) (seg : String) (hseg : seg ∈ strSplitDot m) :
    '.' ∉ seg.data := by
  unfold strSplitDot at hseg
  rcases List.mem_map.mp hseg with ⟨piece, hpiece, hmk⟩
  have := mem_splitOnChar_no_sep '.' m.data piece hpiece
  rw [← hmk]
  exact this

theorem withSuffixSeg_no_dot (s : String) (h : '.' ∉ s.data) :
    withSuffixSeg s = s ++ ".py" := by
  have htw : s.data.reverse.takeWhile (fun c => c ≠ '.') = s.data.reverse := by
    apply List.takeWhile_eq_self_iff.mpr
    intro a ha
    simp only [ne_eq, decide_not, Bool.not_eq_true', decide_eq_false_iff_not]
    intro hac
    exact h (by rw [← hac]; exact List.mem_reverse.mp ha)
  unfold withSuffixSeg
  simp only [htw, List.length_reverse]
  simp

theorem dropLast_append_ne_nil {α : Type} (l₁ : List α) {l₂ : List α} (h : l₂ ≠ []) :
    (l₁ ++ l₂).dropLast = l₁ ++ l₂.dropLast := by
  induction l₁ with
  | nil => simp
  | cons a t ih =>
    have hne : t ++ l₂ ≠ [] := by
      intro hx
      exact h (List.append_eq_nil.mp hx).2
    cases hx : t ++ l₂ with
    | nil => exact absurd hx hne
    | cons b u =>
      simp only [List.cons_append, hx, List.dropLast_cons₂, List.cons.injEq, true_and]
      rw [← hx, ih]

theorem getLast?_append_ne_nil {α : Type} (l₁ : List α) {l₂ : List α} (h : l₂ ≠ []) :
    (l₁ ++ l₂).getLast? = l₂.getLast? := by
  induction l₁ with
  | nil => simp
  | cons a t ih =>
    rw [List.cons_append, List.getLast?_cons, ih]
    cases l₂ with
    | nil => exact absurd rfl h
    | cons b u => simp [List.getLast?_cons]

/-- C6: for a from-import with dot-level `level > 0` and a nonempty dotted
module text, the resolver walks up `level - 1` parent directories from the
origin file's directory, joins the module's dotted segments onto it, and
returns the first existing of `<path>.py` then `<path>/__init__.py`, or
`none` when neither file exists. -/
theorem C6_relative_import_resolution (proj : Project) (cur : FPath)
    (m : String) (lvl : Nat) (hlvl : 0 < lvl) (hm : m ≠ "") :
    resolveImportPath proj cur (some m) lvl =
      (let target := upParents (lvl - 1) (parentDir cur) ++ strSplitDot m
       let pyCand := target.dropLast ++ [target.getLastD "" ++ ".py"]
       if pexists proj pyCand then some pyCand
       else if pexists proj (target ++ ["__init__.py"]) then some (target ++ ["__init__.py"])
       else none) := by
  unfold resolveImportPath
  rw [if_pos hlvl]
  have hsegs : modSegs (some m) = strSplitDot m := by simp [modSegs, hm]
  rw [hsegs]
  have hne := strSplitDot_ne_nil m
  cases hlast : (strSplitDot m).getLast? with
  | none =>
    exfalso
    cases hsd : strSplitDot m with
    | nil => exact hne hsd
    | cons a t => rw [hsd] at hlast; simp [List.getLast?_cons] at hlast
  | some lastSeg =>
    have hmem : lastSeg ∈ strSplitDot m := by
      obtain ⟨hne2, heq⟩ := List.mem_getLast?_eq_getLast (Option.mem_def.mpr hlast)
      rw [heq]
      exact List.getLast_mem hne2
    have hdot := mem_strSplitDot_no_dot m lastSeg hmem
    have htgtlast : (upParents (lvl - 1) (parentDir cur) ++ strSplitDot m).getLast?
        = some lastSeg := by rw [getLast?_append_ne_nil _ hne, hlast]
    have hsuffix : withSuffixPy (upParents (lvl - 1) (parentDir cur) ++ strSplitDot m)
        = (upParents (lvl - 1) (parentDir cur) ++ strSplitDot m).dropLast
          ++ [lastSeg ++ ".py"] := by
      unfold withSuffixPy
      rw [htgtlast]
      show (upParents (lvl - 1) (parentDir cur) ++ strSplitDot m).dropLast
          ++ [withSuffixSeg lastSeg]
        = (upParents (lvl - 1) (parentDir cur) ++ strSplitDot m).dropLast
          ++ [lastSeg ++ ".py"]
      rw [withSuffixSeg_no_dot lastSeg hdot]
    have hgetD : (upParents (lvl - 1) (parentDir cur) ++ strSplitDot m).getLastD ""
        = lastSeg := by
      rw [List.getLastD_eq_getLast?, htgtlast]
      rfl
    simp only [hsuffix, hgetD]

/-- The scenario-D project: `api/__init__.py` next to `api/routers.py`. -/
def projD : Project :=
  ⟨[ { path := ["main.py"], text := "", tree := none, srcLines := [] },
     { path := ["api", "__init__.py"], text := "", tree := none, srcLines := [] },
     { path := ["api", "routers.py"], text := "", tree := none, srcLines := [] } ]⟩

/-- C6 (witness): resolving `from .routers import ...` (level 1, module
`routers`) inside `api/__init__.py` locates `api/routers.py`. -/
theorem C6_relative_import_resolution_w :
    0 < 1 ∧ ("routers" : String) ≠ ""
    ∧ resolveImportPath projD ["api", "__init__.py"] (some "routers") 1
        = some ["api", "routers.py"] := by
  refine ⟨by decide, by decide, ?_⟩
  have h := C6_relative_import_resolution projD ["api", "__init__.py"] "routers" 1
    (by decide) (by decide)
  rw [h]
  decide

/-! ### Claim C7: the main.py/app.py fallback and the empty project -/

/-- C7: when the scan finds no application-instantiating assignment, the
extractor uses every file literally named `main.py` or `app.py` as an
entry point with the assumed variable `app`; when that fallback is also
empty, the run returns the empty endpoint list (with no traversal
activity) instead of failing. -/
theorem C7_fallback_then_empty (proj : Project) (nm : String) (fuel : Nat) :
    (findEntryPoints proj = [] →
      entryPointsUsed proj = (mainAppFiles proj).map fun f => (f.path, "app"))
    ∧ (findEntryPoints proj = [] → mainAppFiles proj = [] →
        extractRun proj nm fuel = some ⟨[], scanParses proj, [], []⟩) := by
  constructor
  · intro h
    unfold entryPointsUsed
    rw [h]
    simp
  · intro h1 h2
    have hq : (initState proj).queue = [] := by
      unfold initState entryPointsUsed
      rw [h1, h2]
      simp
    unfold extractRun
    rw [runLoop_nil hq]
    rfl

/-- A project with zero Python files. -/
def projEmpty : Project := ⟨[]⟩

/-- C7 (witness): the fallback-and-empty theorem applied to the project
with zero Python files. -/
theorem C7_fallback_then_empty_w :
    entryPointsUsed projEmpty = (mainAppFiles projEmpty).map (fun f => (f.path, "app"))
    ∧ extractRun projEmpty "r" 0 = some ⟨[], scanParses projEmpty, [], []⟩ :=
  ⟨(C7_fallback_then_empty projEmpty "r" 0).1 (by rfl),
   (C7_fallback_then_empty projEmpty "r" 0).2 (by rfl) (by rfl)⟩

/-! ### Claim C8: termination of the traversal loop

The potential of a traversal state is its queue length plus, for every
not-yet-processed project file, the number of call nodes in that file
(an upper bound on how many queue items processing it can append, since
each enqueued item stems from one `include_router` call).  Every loop
iteration strictly decreases the potential, so the initial potential is
a sufficient amount of fuel. -/

/-- Upper bound on the queue items processing one file can append. -/
def fileBound (f : PyFile) : Nat :=
  match f.tree with
  | some t => (allCallsIn t).length
  | none => 0

/-- Total bound contributed by the not-yet-processed files. -/
def remBound (proj : Project) (processed : List FPath) : Nat :=
  (proj.files.map fun f => if f.path ∈ processed then 0 else fileBound f).sum

/-- The loop potential. -/
def potQ (proj : Project) (queue : List (FPath × List String))
    (processed : List FPath) : Nat :=
  queue.length + remBound proj processed

theorem remBound_cons_le (proj : Project) (proc : List FPath) (p : FPath) :
    remBound proj (p :: proc) ≤ remBound proj proc := by
  apply sum_map_le_sum_map
  intro f _
  by_cases h1 : f.path ∈ proc
  · simp [h1, List.mem_cons.mpr (Or.inr h1)]
  · by_cases h2 : f.path ∈ p :: proc
    · simp [h1, h2]
    · simp [h1, h2]

theorem findFile_mem_path {proj : Project} {p : FPath} {file : PyFile}
    (h : findFile proj p = some file) : file ∈ proj.files ∧ file.path = p := by
  unfold findFile at h
  refine ⟨List.mem_of_find?_eq_some h, ?_⟩
  have := List.find?_some h
  simpa using this

theorem remBound_drop (proj : Project) (proc : List FPath) (p : FPath) (file : PyFile)
    (hfind : findFile proj p = some file) (hp : p ∉ proc) :
    remBound proj (p :: proc) + fileBound file ≤ remBound proj proc := by
  obtain ⟨hmem, hpath⟩ := findFile_mem_path hfind
  have hx0 : (if file.path ∈ p :: proc then 0 else fileBound file) = 0 := by
    rw [hpath]; simp
  have hgfile : (if file.path ∈ proc then 0 else fileBound file) = fileBound file := by
    rw [hpath]; simp [hp]
  have hsum := sum_map_drop_mem proj.files
    (fun f => if f.path ∈ proc then 0 else fileBound f)
    (fun f => if f.path ∈ p :: proc then 0 else fileBound f)
    file hmem ?_ hx0
  · unfold remBound
    rw [← hgfile]
    exact hsum
  · intro y _
    by_cases h1 : y.path ∈ proc
    · simp [h1, List.mem_cons.mpr (Or.inr h1)]
    · by_cases h2 : y.path ∈ p :: proc
      · simp [h1, h2]
      · simp [h1, h2]

theorem potQ_process_lt (proj : Project) (repoName : String) (st : ExtState)
    (p : FPath) (vars : List String) (rest : List (FPath × List String))
    (hp : p ∉ st.processed) :
    potQ proj (processItem proj repoName st p vars rest).queue
        (processItem proj repoName st p vars rest).processed
      < potQ proj ((p, vars) :: rest) st.processed := by
  cases hf : findFile proj p with
  | none =>
    rw [processItem_eq_nofile hf]
    unfold potQ
    have := remBound_cons_le proj st.processed p
    simp only [List.length_cons]
    omega
  | some file =>
    cases ht : file.tree with
    | none =>
      rw [processItem_eq_noparse hf ht]
      unfold potQ
      have := remBound_cons_le proj st.processed p
      simp only [List.length_cons]
      omega
    | some body =>
      rw [processItem_eq_parsed hf ht]
      unfold potQ
      simp only [List.length_append, List.length_cons]
      have hdrop := remBound_drop proj st.processed p file hf hp
      have hfb : fileBound file = (allCallsIn body).length := by
        unfold fileBound; rw [ht]
      have hnew : (if vars.isEmpty then []
          else (findIncludes body vars).filterMap (processInclude proj body p)).length
            ≤ (allCallsIn body).length := by
        split
        · simp
        · exact Nat.le_trans (List.length_filterMap_le _ _)
            (findIncludes_length_le body vars)
      omega

theorem runLoop_of_fuel (proj : Project) (repoName : String) :
    ∀ (n : Nat) (st : ExtState), potQ proj st.queue st.processed ≤ n →
      ∃ st', runLoop proj repoName n st = some st' := by
  intro n
  induction n with
  | zero =>
    intro st h
    cases hq : st.queue with
    | nil => exact ⟨st, runLoop_nil hq⟩
    | cons hd tl =>
      rw [hq] at h
      simp [potQ] at h
  | succ n ih =>
    intro st h
    cases hq : st.queue with
    | nil => exact ⟨st, runLoop_nil hq⟩
    | cons hd tl =>
      obtain ⟨p, vars⟩ := hd
      rw [hq] at h
      rw [runLoop_cons_succ hq]
      by_cases hp : p ∈ st.processed
      · rw [if_pos hp]
        apply ih
        simp only [potQ, List.length_cons] at h
        show tl.length + remBound proj st.processed ≤ n
        omega
      · rw [if_neg hp]
        apply ih
        have hstep := potQ_process_lt proj repoName st p vars tl hp
        have hlen : potQ proj ((p, vars) :: tl) st.processed ≤ n + 1 := h
        omega

/-- C8: for every project, the breadth-first traversal loop of
`extract_endpoints` terminates — some finite fuel (the loop potential of
the initial state) drives `runLoop` from the seeded state to an emptied
queue, so `extractRun` produces a result.  The potential argument
packages the claim's ingredients: the processed set only grows, a
dequeued file is fully processed at most once, and each processing
appends at most finitely many items (bounded by the file's call count). -/
theorem C8_loop_terminates (proj : Project) (repoName : String) :
    ∃ fuel res, extractRun proj repoName fuel = some res := by
  obtain ⟨st', hst⟩ := runLoop_of_fuel proj repoName
    (potQ proj (initState proj).queue (initState proj).processed)
    (initState proj) (Nat.le_refl _)
  refine ⟨potQ proj (initState proj).queue (initState proj).processed,
    ⟨st'.endpoints, scanParses proj, st'.loopParses, st'.processed⟩, ?_⟩
  unfold extractRun
  rw [hst]
  rfl

/-! ### Claim C9: include_router calls with only keyword arguments -/

theorem getFullName_no_calls : ∀ (e : Expr) (s : String),
    getFullName e = some s → callsE e = []
  | .name _, _, _ => rfl
  | .attrE v _, s, h => by
    unfold getFullName at h
    cases hv : getFullName v with
    | none => rw [hv] at h; cases h
    | some sv =>
      show callsE v = []
      exact getFullName_no_calls v sv hv
  | .call _ _ _ _, s, h => by simp [getFullName] at h
  | .constE _, s, h => by simp [getFullName] at h
  | .otherE _, s, h => by simp [getFullName] at h

theorem callsL_names : ∀ l : List String, callsL (l.map Expr.name) = [] := by
  intro l
  induction l with
  | nil => rfl
  | cons x xs ih => simp [callsL, callsE, ih]

/-- C9: an `include_router` call whose receiver resolves to a tracked
router-like name but which passes *no positional argument* (keyword
arguments only) is silently ignored: it contributes nothing to the
include extraction, and a tree consisting of such a call yields an empty
include set — so no traversal branch is ever enqueued for it. -/
theorem C9_keyword_only_include_ignored (vars : List String) (recv : Expr)
    (callerId : String) (kwNames : List (Option String)) (kwVars : List String)
    (hfull : getFullName recv = some callerId) (hmem : callerId ∈ vars) :
    includeOfCall vars
        (.call (.attrE recv "include_router") [] kwNames (kwVars.map Expr.name)) = none
    ∧ findIncludes
        [.exprStmt (.call (.attrE recv "include_router") [] kwNames (kwVars.map Expr.name))]
        vars = [] := by
  have hinc : includeOfCall vars
      (.call (.attrE recv "include_router") [] kwNames (kwVars.map Expr.name)) = none := by
    simp [includeOfCall, hfull, hmem]
  refine ⟨hinc, ?_⟩
  have hrecv : callsE recv = [] := getFullName_no_calls recv callerId hfull
  have hkw := callsL_names kwVars
  unfold findIncludes
  have hcall : allCallsIn
      [.exprStmt (.call (.attrE recv "include_router") [] kwNames (kwVars.map Expr.name))]
      = [.call (.attrE recv "include_router") [] kwNames (kwVars.map Expr.name)] := by
    unfold allCallsIn bfsAll
    simp [sizeL, sizeS, bfsAux, stmtChildStmts, stmtExprs, callsL, callsE, hrecv, hkw]
  rw [hcall]
  simp [hinc, dedupF, dedupAux]

/-- C9 (witness): the theorem applied to the concrete call
`app.include_router(router=tasks_router)` with `app` tracked. -/
theorem C9_keyword_only_include_ignored_w :
    includeOfCall ["app"]
        (.call (.attrE (.name "app") "include_router") [] [some "router"]
          (["tasks_router"].map Expr.name)) = none
    ∧ findIncludes
        [.exprStmt (.call (.attrE (.name "app") "include_router") [] [some "router"]
          (["tasks_router"].map Expr.name))] ["app"] = [] :=
  C9_keyword_only_include_ignored ["app"] (.name "app") "app" [some "router"]
    ["tasks_router"] (by decide) (by decide)

/-! ### Claim C10: dotted include arguments with three or more components -/

/-- C10: for an included name written as a dotted chain of three or more
components, the walker resolves only the first component as the import
base and tracks only the second component as the target variable; the
result does not mention the third or later components at all. -/
theorem C10_dotted_chain_drops_tail (proj : Project) (body : List Stmt) (cur : FPath)
    (nm a b c : String) (rest : List String)
    (hsplit : strSplitDot nm = a :: b :: c :: rest)
    (hdot : strHasChar nm '.' = true) :
    processInclude proj body cur nm
      = (resolveVariableOrigin proj body cur a).map fun pr => (pr.1, [b]) := by
  unfold processInclude
  simp only [hdot, hsplit, if_true, List.getD_cons_zero, List.getD_cons_succ]
  cases hres : resolveVariableOrigin proj body cur a with
  | none => rfl
  | some pr =>
    obtain ⟨tf, rn⟩ := pr
    cases rn <;> simp

/-- The origin of `a` in the C10 exemplar: a local assignment. -/
def bodyC10 : List Stmt := [.assign [.tName "a"] (.constE (.str "x"))]

/-- C10 (witness): the theorem applied to the dotted name `a.b.c` in a
file that assigns `a` locally — the branch is enqueued for variable `b`,
and `c` is discarded. -/
theorem C10_dotted_chain_drops_tail_w :
    strSplitDot "a.b.c" = ["a", "b", "c"]
    ∧ strHasChar "a.b.c" '.' = true
    ∧ processInclude projEmpty bodyC10 ["main.py"] "a.b.c"
        = some (["main.py"], ["b"]) := by
  refine ⟨by decide, by decide, ?_⟩
  rw [C10_dotted_chain_drops_tail projEmpty bodyC10 ["main.py"] "a.b.c" "a" "b" "c" []
    (by decide) (by decide)]
  decide

end PyRC
